import Mathlib

/-!
Verification development for the Apriori frequent-itemset and
association-rule miner of `assoc-rule-miner-template.py`.

Items are strings, transactions and itemsets are lists of items (the
Python code works with `list` of `str` throughout), and support /
confidence thresholds are rationals (the Python floats never undergo
rounding that the properties below depend on).  The `while` loop of
`generate_frequent_itemset` is embedded with an explicit fuel
parameter; `vocabBound` supplies enough fuel for the loop to reach its
empty-frontier exit, which is proved below (theorem for claim C9).
-/

set_option maxRecDepth 4000

set_option linter.unusedVariables false

abbrev Item := String

abbrev Itemset := List Item

abbrev Transaction := List Item

/-- Embeds `is_contains_candidate`: true when every item of `candidate`
occurs in `transaction`. -/
def is_contains_candidate (transaction : Transaction) (candidate : Itemset) : Bool :=
  candidate.all (fun item => transaction.contains item)

/-- Number of transactions containing `candidate`, the `support_count`
accumulator of `get_support_for_candidate`. -/
def support_count (transactions : List Transaction) (candidate : Itemset) : Nat :=
  (transactions.filter (fun transaction => is_contains_candidate transaction candidate)).length

/-- Embeds `get_support_for_candidate`: the integer `support_count` divided
by the integer `len(transactions)`, as an exact rational
(`get_support_for_candidate_eq_div` below restates this with field
division). -/
def get_support_for_candidate (transactions : List Transaction) (candidate : Itemset) : ℚ :=
  Rat.divInt (support_count transactions candidate : Int) (transactions.length : Int)

/-- Embeds `candidate_elimination`: keep the candidates whose support is
at least `minsup`. -/
def candidate_elimination (transactions : List Transaction) (candidates : List Itemset)
    (minsup : ℚ) : List Itemset :=
  candidates.filter (fun candidate =>
    decide (minsup ≤ get_support_for_candidate transactions candidate))

/-- Embeds `merge`.  The Python function compares the first
`len(itemset1) - 1` positions of the two lists and, when they all agree,
appends `itemset2[len(itemset1) - 1]` to a copy of `itemset1`; with
`len(itemset1) == 1` it skips the comparison, and with an empty
`itemset1` it falls off the loop and returns `None`.  Out-of-range
indexing (possible only when `itemset2` is shorter than `itemset1`,
which no call site produces) is rendered with the `""` default. -/
def merge (itemset1 itemset2 : Itemset) : Option Itemset :=
  let length := itemset1.length
  if length = 1 then
    some (itemset1 ++ [itemset2.headD ""])
  else if length = 0 then
    none
  else if itemset1.take (length - 1) = itemset2.take (length - 1) then
    some (itemset1 ++ [itemset2.getD (length - 1) ""])
  else
    none

/-- Ordered pairs `(l[i], l[j])` with `i < j`, in the iteration order of
the double loop of `candidate_generation`. -/
def pairs : List Itemset → List (Itemset × Itemset)
  | [] => []
  | a :: rest => rest.map (fun b => (a, b)) ++ pairs rest

/-- Embeds `candidate_generation`: merge every ordered pair of distinct
positions, keeping the non-`None` results. -/
def candidate_generation (frequent_items : List Itemset) : List Itemset :=
  (pairs frequent_items).filterMap (fun p => merge p.1 p.2)

/-- Embeds `is_prune_candidate`: true when some list obtained from
`candidate` by deleting one position is absent from `frequent_items`. -/
def is_prune_candidate (frequent_items : List Itemset) (candidate : Itemset) : Bool :=
  ((List.range candidate.length).reverse.map (fun i => candidate.eraseIdx i)).any
    (fun subset => !(frequent_items.contains subset))

/-- Embeds `candidate_prune`: a no-op at the first level (singleton
frontier itemsets), otherwise drop every candidate with a missing
subset. -/
def candidate_prune (frequent_items candidates : List Itemset) : List Itemset :=
  if (frequent_items.headD []).length = 1 then
    candidates
  else
    candidates.filter (fun candidate => !(is_prune_candidate frequent_items candidate))

/-- Distinct items of the transactions in first-occurrence order: the
key set of the counting dictionary of `generate_initial_frequent_items`. -/
def distinct_items (transactions : List Transaction) : List Item :=
  transactions.foldl
    (fun acc transaction =>
      transaction.foldl (fun acc2 item => if acc2.contains item then acc2 else acc2 ++ [item]) acc)
    []

/-- Total number of occurrences of `item` across the transactions: the
dictionary value accumulated by `generate_initial_frequent_items`. -/
def item_count (transactions : List Transaction) (item : Item) : Nat :=
  (transactions.map (fun transaction => transaction.count item)).sum

/-- Embeds `generate_initial_frequent_items`: keep the items whose
occurrence tally divided by the number of transactions reaches
`minsup`, each wrapped as a singleton itemset. -/
def generate_initial_frequent_items (transactions : List Transaction) (minsup : ℚ) :
    List Itemset :=
  ((distinct_items transactions).filter (fun item =>
      decide (minsup ≤ Rat.divInt (item_count transactions item : Int)
        (transactions.length : Int)))).map
    (fun item => [item])

/-- Embeds the `while` loop of `generate_frequent_itemset` with an
explicit fuel parameter: while the frontier is non-empty, emit it,
generate, prune and eliminate to obtain the next frontier. -/
def freq_loop (transactions : List Transaction) (minsup : ℚ) :
    Nat → List Itemset → List Itemset
  | 0, _ => []
  | fuel + 1, frequent_items =>
    if frequent_items.isEmpty then
      []
    else
      frequent_items ++
        freq_loop transactions minsup fuel
          (candidate_elimination transactions
            (candidate_prune frequent_items (candidate_generation frequent_items)) minsup)

/-- Fuel that provably suffices for `freq_loop` to reach its
empty-frontier exit: two more than the number of distinct items. -/
def vocabBound (transactions : List Transaction) : Nat :=
  (distinct_items transactions).length + 2

/-- The level-wise loop of `generate_frequent_itemset` run with a given
amount of fuel, starting from the size-1 frequent itemsets. -/
def generate_frequent_itemset_fuel (transactions : List Transaction) (minsup : ℚ)
    (fuel : Nat) : List Itemset :=
  freq_loop transactions minsup fuel (generate_initial_frequent_items transactions minsup)

/-- Embeds `generate_frequent_itemset`, with the fuel fixed at the
provably sufficient `vocabBound`. -/
def generate_frequent_itemset (transactions : List Transaction) (minsup : ℚ) : List Itemset :=
  generate_frequent_itemset_fuel transactions minsup (vocabBound transactions)

/-- Embeds `minus_subset`: the elements of `itemset1` that do not occur
in `itemset2`. -/
def minus_subset {α : Type} [BEq α] (itemset1 itemset2 : List α) : List α :=
  itemset1.filter (fun item => !(itemset2.contains item))

/-- Embeds `calculate_conf`: support of the concatenation divided by the
support of the antecedent. -/
def calculate_conf (transactions : List Transaction) (itemset_x itemset_y : Itemset) : ℚ :=
  get_support_for_candidate transactions (itemset_x ++ itemset_y) /
    get_support_for_candidate transactions itemset_x

/-- The confidence test of `rule_prune` on one candidate consequent `h`. -/
def rule_keeps (transactions : List Transaction) (frequent_itemset : Itemset) (minconf : ℚ)
    (h : Itemset) : Bool :=
  decide (minconf ≤ calculate_conf transactions (minus_subset frequent_itemset h) h)

/-- Embeds `rule_prune`: emit a rule `x ++ ["=>"] ++ h` for every
consequent passing the confidence test, and return the surviving
consequents together with the emitted rules. -/
def rule_prune (transactions : List Transaction) (frequent_itemset : Itemset)
    (H : List Itemset) (minconf : ℚ) : List Itemset × List (List String) :=
  let output_rules :=
    (H.filter (fun h => rule_keeps transactions frequent_itemset minconf h)).map
      (fun h => minus_subset frequent_itemset h ++ "=>" :: h)
  let delete_itemsets := H.filter (fun h => !(rule_keeps transactions frequent_itemset minconf h))
  (minus_subset H delete_itemsets, output_rules)

/-- Embeds the inner `while` loop of `generate_association_rules`: the
consequent size grows once per iteration, and the iteration count
`len(frequent_itemset) - 2` is fixed on entry. -/
def rule_loop (transactions : List Transaction) (frequent_itemset : Itemset) (minconf : ℚ) :
    Nat → List Itemset → List (List String)
  | 0, _ => []
  | n + 1, H =>
    let pr := rule_prune transactions frequent_itemset (candidate_generation H) minconf
    pr.2 ++ rule_loop transactions frequent_itemset minconf n pr.1

/-- The body of `generate_association_rules` for one frequent itemset:
rules are produced only for itemsets of size at least 2, starting from
singleton consequents. -/
def rules_for_itemset (transactions : List Transaction) (minconf : ℚ)
    (frequent_itemset : Itemset) : List (List String) :=
  if 2 ≤ frequent_itemset.length then
    let pr := rule_prune transactions frequent_itemset
      (frequent_itemset.map (fun x => [x])) minconf
    pr.2 ++ rule_loop transactions frequent_itemset minconf (frequent_itemset.length - 2) pr.1
  else
    []

/-- Embeds `generate_association_rules` with explicit mining fuel. -/
def generate_association_rules_fuel (transactions : List Transaction) (minsup minconf : ℚ)
    (fuel : Nat) : List (List String) :=
  (generate_frequent_itemset_fuel transactions minsup fuel).foldr
    (fun frequent_itemset acc => rules_for_itemset transactions minconf frequent_itemset ++ acc) []

/-- Embeds `generate_association_rules`: mine the frequent itemsets and
concatenate the rules produced for each of them, in order. -/
def generate_association_rules (transactions : List Transaction) (minsup minconf : ℚ) :
    List (List String) :=
  generate_association_rules_fuel transactions minsup minconf (vocabBound transactions)

/-- Invariant of the frontier of the level-wise loop at level `k`: the
frontier is a duplicate-free list of duplicate-free itemsets of length
`k` whose labels all come from `vocab`. -/
def goodFrontier (vocab : List Item) (k : Nat) (frontier : List Itemset) : Prop :=
  frontier.Nodup ∧
    ∀ S ∈ frontier, S.Nodup ∧ S.length = k ∧ ∀ x ∈ S, x ∈ vocab

/-- The support of a candidate is the fraction of transactions that
contain it, written with rational division. -/
theorem get_support_for_candidate_eq_div (transactions : List Transaction)
    (candidate : Itemset) :
    get_support_for_candidate transactions candidate =
      (support_count transactions candidate : ℚ) / (transactions.length : ℚ) := by
  rw [get_support_for_candidate, Rat.divInt_eq_div]
  push_cast
  rfl

theorem is_contains_candidate_iff {transaction : Transaction} {candidate : Itemset} :
    is_contains_candidate transaction candidate = true ↔ ∀ x ∈ candidate, x ∈ transaction := by
  simp [is_contains_candidate]

theorem support_count_mono {t : List Transaction} {c1 c2 : Itemset}
    (h : ∀ x ∈ c1, x ∈ c2) : support_count t c2 ≤ support_count t c1 := by
  unfold support_count
  induction t with
  | nil => simp
  | cons T t ih =>
    by_cases hT : is_contains_candidate T c2 = true
    · have hT1 : is_contains_candidate T c1 = true :=
        is_contains_candidate_iff.2 fun x hx => is_contains_candidate_iff.1 hT x (h x hx)
      simp [List.filter_cons, hT, hT1]
      omega
    · by_cases hT1 : is_contains_candidate T c1 = true <;>
        simp [List.filter_cons, hT, hT1] <;> omega

theorem support_count_le_length (t : List Transaction) (c : Itemset) :
    support_count t c ≤ t.length :=
  List.length_filter_le _ _

theorem get_support_nonneg (t : List Transaction) (c : Itemset) :
    0 ≤ get_support_for_candidate t c := by
  rw [get_support_for_candidate_eq_div]
  positivity

theorem get_support_pos {t : List Transaction} {c : Itemset} (ht : t ≠ [])
    (h : 0 < support_count t c) : 0 < get_support_for_candidate t c := by
  rw [get_support_for_candidate_eq_div]
  have hlen : 0 < t.length := List.length_pos.2 ht
  have : (0 : ℚ) < (t.length : ℚ) := by exact_mod_cast hlen
  positivity

theorem support_count_pos_of_le {t : List Transaction} {m : ℚ} {c : Itemset}
    (hm : 0 < m) (h : m ≤ get_support_for_candidate t c) : 0 < support_count t c := by
  by_contra h0
  have h0 : support_count t c = 0 := by omega
  rw [get_support_for_candidate, h0] at h
  simp only [Int.natCast_zero, Rat.zero_divInt] at h
  exact absurd (lt_of_lt_of_le hm h) (lt_irrefl 0)

theorem get_support_mono {t : List Transaction} {c1 c2 : Itemset}
    (h : ∀ x ∈ c1, x ∈ c2) :
    get_support_for_candidate t c2 ≤ get_support_for_candidate t c1 := by
  rcases eq_or_ne t [] with rfl | ht
  · simp [get_support_for_candidate]
  · rw [get_support_for_candidate_eq_div, get_support_for_candidate_eq_div]
    have hlen : (0 : ℚ) < (t.length : ℚ) := by
      exact_mod_cast List.length_pos.2 ht
    apply div_le_div_of_nonneg_right ?_ hlen.le
    exact_mod_cast support_count_mono h

theorem mem_candidate_elimination {t : List Transaction} {m : ℚ} {cands : List Itemset}
    {c : Itemset} :
    c ∈ candidate_elimination t cands m ↔
      c ∈ cands ∧ m ≤ get_support_for_candidate t c := by
  simp [candidate_elimination]

theorem distinct_items_step_nodup (T : Transaction) :
    ∀ acc : List Item, acc.Nodup →
      (T.foldl (fun acc2 item => if acc2.contains item then acc2 else acc2 ++ [item])
        acc).Nodup := by
  induction T with
  | nil => intro acc h; exact h
  | cons x T ih =>
    intro acc h
    simp only [List.foldl_cons]
    by_cases hx : x ∈ acc
    · simpa [hx] using ih acc h
    · have : (acc ++ [x]).Nodup := by simp [List.nodup_append, h, hx]
      simpa [hx] using ih (acc ++ [x]) this

theorem distinct_items_nodup (t : List Transaction) : (distinct_items t).Nodup := by
  unfold distinct_items
  suffices h : ∀ acc : List Item, acc.Nodup →
      (t.foldl (fun acc transaction =>
        transaction.foldl
          (fun acc2 item => if acc2.contains item then acc2 else acc2 ++ [item]) acc) acc).Nodup by
    exact h [] List.nodup_nil
  induction t with
  | nil => intro acc h; exact h
  | cons T t ih =>
    intro acc h
    simp only [List.foldl_cons]
    exact ih _ (distinct_items_step_nodup T acc h)

theorem mem_generate_initial {t : List Transaction} {m : ℚ} {S : Itemset} :
    S ∈ generate_initial_frequent_items t m ↔
      ∃ x, x ∈ distinct_items t ∧
        m ≤ Rat.divInt (item_count t x : Int) (t.length : Int) ∧ S = [x] := by
  simp only [generate_initial_frequent_items, List.mem_map, List.mem_filter,
    decide_eq_true_eq]
  constructor
  · rintro ⟨x, ⟨hx, hle⟩, rfl⟩
    exact ⟨x, hx, hle, rfl⟩
  · rintro ⟨x, hx, hle, rfl⟩
    exact ⟨x, ⟨hx, hle⟩, rfl⟩

theorem generate_initial_nodup (t : List Transaction) (m : ℚ) :
    (generate_initial_frequent_items t m).Nodup := by
  apply List.Nodup.map
  · intro x y hxy
    simpa using hxy
  · exact (distinct_items_nodup t).filter _

theorem generate_initial_goodFrontier (t : List Transaction) (m : ℚ) :
    goodFrontier (distinct_items t) 1 (generate_initial_frequent_items t m) := by
  refine ⟨generate_initial_nodup t m, ?_⟩
  intro S hS
  obtain ⟨x, hx, _, rfl⟩ := mem_generate_initial.1 hS
  refine ⟨List.nodup_singleton x, rfl, ?_⟩
  intro y hy
  simp only [List.mem_singleton] at hy
  exact hy ▸ hx

theorem merge_append {p q : Itemset} {x y : Item} (hlen : p.length = q.length) :
    merge (p ++ [x]) (q ++ [y]) = if p = q then some (p ++ [x, y]) else none := by
  rcases eq_or_ne p [] with rfl | hp
  · have hq : q = [] := List.length_eq_zero.1 (hlen.symm ▸ rfl)
    subst hq
    simp [merge]
  · have hp1 : 1 ≤ p.length := Nat.one_le_iff_ne_zero.2 fun h => hp (List.length_eq_zero.1 h)
    have hlen1 : (p ++ [x]).length = p.length + 1 := by simp
    have htake1 : (p ++ [x]).take ((p ++ [x]).length - 1) = p := by
      rw [hlen1]
      simp
    have htake2 : (q ++ [y]).take ((p ++ [x]).length - 1) = q := by
      rw [hlen1]
      simp [hlen]
    have hgetD : (q ++ [y]).getD ((p ++ [x]).length - 1) "" = y := by
      rw [hlen1]
      simp only [Nat.add_sub_cancel, hlen]
      rw [List.getD_append_right _ _ _ _ (le_refl _)]
      simp [List.getD]
    unfold merge
    rw [if_neg (by omega), if_neg (by omega), htake1, htake2, hgetD]
    by_cases hpq : p = q <;> simp [hpq]

theorem merge_eq_some {a b c : Itemset} (ha : a ≠ []) (hb : b ≠ [])
    (hlen : a.length = b.length) (h : merge a b = some c) :
    ∃ p x y, a = p ++ [x] ∧ b = p ++ [y] ∧ c = p ++ [x, y] := by
  rcases a.eq_nil_or_concat' with rfl | ⟨p, x, rfl⟩
  · exact absurd rfl ha
  rcases b.eq_nil_or_concat' with rfl | ⟨q, y, rfl⟩
  · exact absurd rfl hb
  have hpq : p.length = q.length := by
    have := hlen
    simp only [List.length_append, List.length_cons, List.length_nil] at this
    omega
  rw [merge_append hpq] at h
  by_cases hc : p = q
  · subst hc
    rw [if_pos rfl] at h
    exact ⟨p, x, y, rfl, rfl, (Option.some_inj.1 h).symm⟩
  · rw [if_neg hc] at h
    exact absurd h (by simp)

theorem merge_concat {p : Itemset} {x y : Item} :
    merge (p ++ [x]) (p ++ [y]) = some (p ++ [x, y]) := by
  rw [merge_append rfl, if_pos rfl]

theorem mem_pairs_cons {x : Itemset} {rest : List Itemset} {a b : Itemset} :
    (a, b) ∈ pairs (x :: rest) ↔ (a = x ∧ b ∈ rest) ∨ (a, b) ∈ pairs rest := by
  simp only [pairs, List.mem_append, List.mem_map, Prod.mk.injEq]
  constructor
  · rintro (⟨b2, hb2, rfl, rfl⟩ | h)
    · exact Or.inl ⟨rfl, hb2⟩
    · exact Or.inr h
  · rintro (⟨rfl, hb⟩ | h)
    · exact Or.inl ⟨b, hb, rfl, rfl⟩
    · exact Or.inr h

theorem mem_pairs {l : List Itemset} {a b : Itemset} (h : (a, b) ∈ pairs l) :
    a ∈ l ∧ b ∈ l := by
  induction l with
  | nil => simp [pairs] at h
  | cons x rest ih =>
    rcases mem_pairs_cons.1 h with ⟨rfl, hb⟩ | h2
    · exact ⟨List.mem_cons_self _ _, List.mem_cons_of_mem _ hb⟩
    · exact ⟨List.mem_cons_of_mem _ (ih h2).1, List.mem_cons_of_mem _ (ih h2).2⟩

theorem pairs_mem_of_ne {l : List Itemset} {a b : Itemset} (hab : a ≠ b)
    (ha : a ∈ l) (hb : b ∈ l) : (a, b) ∈ pairs l ∨ (b, a) ∈ pairs l := by
  induction l with
  | nil => simp at ha
  | cons x rest ih =>
    rcases List.mem_cons.1 ha with rfl | ha2
    · have hb2 : b ∈ rest := by
        rcases List.mem_cons.1 hb with rfl | hb2
        · exact absurd rfl hab
        · exact hb2
      exact Or.inl (mem_pairs_cons.2 (Or.inl ⟨rfl, hb2⟩))
    · rcases List.mem_cons.1 hb with rfl | hb2
      · exact Or.inr (mem_pairs_cons.2 (Or.inl ⟨rfl, ha2⟩))
      · rcases ih ha2 hb2 with h | h
        · exact Or.inl (mem_pairs_cons.2 (Or.inr h))
        · exact Or.inr (mem_pairs_cons.2 (Or.inr h))

theorem pairs_ne_of_nodup {l : List Itemset} (hl : l.Nodup) {a b : Itemset}
    (h : (a, b) ∈ pairs l) : a ≠ b := by
  induction l with
  | nil => simp [pairs] at h
  | cons x rest ih =>
    obtain ⟨hx, hrest⟩ := List.nodup_cons.1 hl
    rcases mem_pairs_cons.1 h with ⟨rfl, hb⟩ | h2
    · exact fun hcon => hx (hcon ▸ hb)
    · exact ih hrest h2

theorem pairs_nodup {l : List Itemset} (hl : l.Nodup) : (pairs l).Nodup := by
  induction l with
  | nil => simp [pairs]
  | cons x rest ih =>
    obtain ⟨hx, hrest⟩ := List.nodup_cons.1 hl
    simp only [pairs]
    rw [List.nodup_append]
    refine ⟨hrest.map (fun b1 b2 h => by injection h), ih hrest, ?_⟩
    intro p hp hq
    obtain ⟨b2, _, rfl⟩ := List.mem_map.1 hp
    exact hx (mem_pairs hq).1

theorem mem_candidate_generation {l : List Itemset} {c : Itemset} :
    c ∈ candidate_generation l ↔ ∃ a b, (a, b) ∈ pairs l ∧ merge a b = some c := by
  simp only [candidate_generation, List.mem_filterMap, Prod.exists]

theorem merge_determined {a b c : Itemset} (ha : a ≠ []) (hb : b ≠ [])
    (hlen : a.length = b.length) (h : merge a b = some c) :
    a = c.take a.length ∧ b = a.dropLast ++ [c.getLastD ""] := by
  obtain ⟨p, x, y, rfl, rfl, rfl⟩ := merge_eq_some ha hb hlen h
  constructor
  · rw [show p ++ [x, y] = (p ++ [x]) ++ [y] by simp]
    exact (List.take_left' rfl).symm
  · rw [List.dropLast_concat]
    rw [show p ++ [x, y] = (p ++ [x]) ++ [y] by simp, List.getLastD_concat]

theorem candidate_generation_good {v : List Item} {k : Nat} {fr : List Itemset}
    (hg : goodFrontier v k fr) (hk : 1 ≤ k) :
    goodFrontier v (k + 1) (candidate_generation fr) := by
  have hmem : ∀ c ∈ candidate_generation fr,
      c.Nodup ∧ c.length = k + 1 ∧ ∀ x ∈ c, x ∈ v := by
    intro c hc
    obtain ⟨a, b, hab, hm⟩ := mem_candidate_generation.1 hc
    obtain ⟨haf, hbf⟩ := mem_pairs hab
    have hne : a ≠ b := pairs_ne_of_nodup hg.1 hab
    obtain ⟨hand, halen, hav⟩ := hg.2 a haf
    obtain ⟨hbnd, hblen, hbv⟩ := hg.2 b hbf
    have ha0 : a ≠ [] := fun h => by simp [h] at halen; omega
    have hb0 : b ≠ [] := fun h => by simp [h] at hblen; omega
    obtain ⟨p, x, y, rfl, rfl, rfl⟩ := merge_eq_some ha0 hb0 (halen.trans hblen.symm) hm
    have hxp : x ∉ p := by
      have := List.nodup_append.1 hand
      intro hcon
      exact this.2.2 hcon (List.mem_singleton_self x)
    have hyp : y ∉ p := by
      have := List.nodup_append.1 hbnd
      intro hcon
      exact this.2.2 hcon (List.mem_singleton_self y)
    have hxy : x ≠ y := fun h => hne (by rw [h])
    refine ⟨?_, ?_, ?_⟩
    · rw [show p ++ [x, y] = (p ++ [x]) ++ [y] by simp]
      rw [List.nodup_append]
      refine ⟨hand, List.nodup_singleton y, ?_⟩
      intro e he hey
      rw [List.mem_singleton] at hey
      subst hey
      rcases List.mem_append.1 he with h | h
      · exact hyp h
      · exact hxy (List.mem_singleton.1 h).symm
    · simp only [List.length_append, List.length_cons, List.length_nil] at halen ⊢
      omega
    · intro e he
      rcases List.mem_append.1 he with h | h
      · exact hav e (List.mem_append_left _ h)
      · rcases List.mem_cons.1 h with rfl | h2
        · exact hav e (List.mem_append_right _ (List.mem_singleton_self e))
        · rw [List.mem_singleton] at h2
          subst h2
          exact hbv e (List.mem_append_right _ (List.mem_singleton_self e))
  refine ⟨?_, hmem⟩
  unfold candidate_generation
  have hcongr : (pairs fr).filterMap (fun p => merge p.1 p.2) =
      (pairs fr).filterMap (fun p =>
        if p.1.length = k ∧ p.2.length = k then merge p.1 p.2 else none) := by
    apply List.filterMap_congr
    intro ab hab
    obtain ⟨h1, h2⟩ := mem_pairs hab
    rw [if_pos ⟨(hg.2 ab.1 h1).2.1, (hg.2 ab.2 h2).2.1⟩]
  rw [hcongr]
  apply List.Nodup.filterMap ?_ (pairs_nodup hg.1)
  rintro ⟨a, b⟩ ⟨a2, b2⟩ c hc hc2
  simp only [Option.mem_def] at hc hc2
  by_cases h1 : a.length = k ∧ b.length = k
  · rw [if_pos h1] at hc
    by_cases h2 : a2.length = k ∧ b2.length = k
    · rw [if_pos h2] at hc2
      have ha0 : a ≠ [] := fun h => by simp [h] at h1; omega
      have hb0 : b ≠ [] := fun h => by simp [h] at h1; omega
      have ha20 : a2 ≠ [] := fun h => by simp [h] at h2; omega
      have hb20 : b2 ≠ [] := fun h => by simp [h] at h2; omega
      obtain ⟨hha, hhb⟩ := merge_determined ha0 hb0 (h1.1.trans h1.2.symm) hc
      obtain ⟨hha2, hhb2⟩ := merge_determined ha20 hb20 (h2.1.trans h2.2.symm) hc2
      have haa : a = a2 := by rw [hha, hha2, h1.1, h2.1]
      have hbb : b = b2 := by rw [hhb, hhb2, haa]
      rw [haa, hbb]
    · rw [if_neg h2] at hc2
      exact absurd hc2 (by simp)
  · rw [if_neg h1] at hc
    exact absurd hc (by simp)

theorem candidate_prune_sublist (fr cands : List Itemset) :
    (candidate_prune fr cands).Sublist cands := by
  unfold candidate_prune
  split
  · exact List.Sublist.refl _
  · exact List.filter_sublist _

theorem candidate_elimination_sublist (t : List Transaction) (cands : List Itemset) (m : ℚ) :
    (candidate_elimination t cands m).Sublist cands :=
  List.filter_sublist _

theorem next_frontier_good {t : List Transaction} {m : ℚ} {v : List Item} {k : Nat}
    {fr : List Itemset} (hg : goodFrontier v k fr) (hk : 1 ≤ k) :
    goodFrontier v (k + 1)
      (candidate_elimination t (candidate_prune fr (candidate_generation fr)) m) := by
  have hgen := candidate_generation_good hg hk
  have hsub : (candidate_elimination t (candidate_prune fr (candidate_generation fr)) m).Sublist
      (candidate_generation fr) :=
    (candidate_elimination_sublist ..).trans (candidate_prune_sublist ..)
  exact ⟨hgen.1.sublist hsub, fun S hS => hgen.2 S (hsub.subset hS)⟩

theorem frontier_empty_of_big {v : List Item} {k : Nat} {fr : List Itemset}
    (hg : goodFrontier v k fr) (hv : v.length < k) : fr = [] := by
  rcases fr with _ | ⟨S, fr2⟩
  · rfl
  · exfalso
    obtain ⟨hnd, hlen, hsub⟩ := hg.2 S (List.mem_cons_self ..)
    have h1 : S.toFinset.card = k := by rw [List.toFinset_card_of_nodup hnd, hlen]
    have h2 : S.toFinset ⊆ v.toFinset := fun x hx =>
      List.mem_toFinset.2 (hsub x (List.mem_toFinset.1 hx))
    have h3 := Finset.card_le_card h2
    have h4 := List.toFinset_card_le v
    omega

theorem is_prune_candidate_eq_false {fr : List Itemset} {c : Itemset} :
    is_prune_candidate fr c = false ↔ ∀ i < c.length, c.eraseIdx i ∈ fr := by
  simp [is_prune_candidate]

theorem eraseIdx_append_len {α : Type} (l1 : List α) (e : α) (l2 : List α) :
    (l1 ++ e :: l2).eraseIdx l1.length = l1 ++ l2 := by
  induction l1 with
  | nil => simp
  | cons x l1 ih => simpa [List.eraseIdx] using ih

theorem toFinset_append_middle {l1 l2 : List Item} {e : Item}
    (h1 : e ∉ l1) (h2 : e ∉ l2) :
    (l1 ++ l2).toFinset = (l1 ++ e :: l2).toFinset.erase e := by
  simp only [List.toFinset_append, List.toFinset_cons]
  rw [Finset.erase_union_distrib,
    Finset.erase_eq_of_not_mem (by simpa using h1),
    Finset.erase_insert (by simpa using h2)]

theorem next_frontier_erase {t : List Transaction} {m : ℚ} {v : List Item} {k : Nat}
    {fr : List Itemset} (hg : goodFrontier v k fr) (hk : 1 ≤ k) :
    ∀ S ∈ candidate_elimination t (candidate_prune fr (candidate_generation fr)) m,
      ∀ e ∈ S, ∃ F ∈ fr, F.toFinset = S.toFinset.erase e := by
  intro S hS e he
  have hSpruned : S ∈ candidate_prune fr (candidate_generation fr) :=
    (candidate_elimination_sublist ..).subset hS
  have hScand : S ∈ candidate_generation fr :=
    (candidate_prune_sublist ..).subset hSpruned
  obtain ⟨hSnd, hSlen, _⟩ := (candidate_generation_good hg hk).2 S hScand
  obtain ⟨a, b, hab, hm⟩ := mem_candidate_generation.1 hScand
  obtain ⟨haf, hbf⟩ := mem_pairs hab
  have hne : a ≠ b := pairs_ne_of_nodup hg.1 hab
  obtain ⟨hand, halen, _⟩ := hg.2 a haf
  obtain ⟨hbnd, hblen, _⟩ := hg.2 b hbf
  rcases Nat.lt_or_ge k 2 with hk1 | hk2
  · -- level 1: the candidates are merges of two singleton frontier members
    have hk1 : k = 1 := by omega
    subst hk1
    have ha0 : a ≠ [] := fun h => by simp [h] at halen
    have hb0 : b ≠ [] := fun h => by simp [h] at hblen
    obtain ⟨p, x, y, hpa, hpb, rfl⟩ := merge_eq_some ha0 hb0 (halen.trans hblen.symm) hm
    have hp : p = [] := by
      have h2 := halen
      rw [hpa] at h2
      simp only [List.length_append, List.length_cons, List.length_nil] at h2
      exact List.length_eq_zero.1 (by omega)
    subst hp
    simp only [List.nil_append] at hpa hpb ⊢
    have hxy : x ≠ y := by
      intro hcon
      exact hne (hpa.trans (hcon ▸ hpb.symm))
    have he3 : e = x ∨ e = y := by simpa using he
    rcases he3 with rfl | rfl
    · refine ⟨b, hbf, ?_⟩
      rw [hpb]
      ext z
      simp only [List.toFinset_cons, List.toFinset_nil, Finset.mem_erase, Finset.mem_insert,
        Finset.not_mem_empty, or_false]
      constructor
      · rintro rfl
        exact ⟨fun hc => hxy hc.symm, Or.inr rfl⟩
      · rintro ⟨h1, h2 | h2⟩
        · exact absurd h2 h1
        · exact h2
    · refine ⟨a, haf, ?_⟩
      rw [hpa]
      ext z
      simp only [List.toFinset_cons, List.toFinset_nil, Finset.mem_erase, Finset.mem_insert,
        Finset.not_mem_empty, or_false]
      constructor
      · rintro rfl
        exact ⟨fun hc => hxy hc, Or.inl rfl⟩
      · rintro ⟨h1, h2 | h2⟩
        · exact h2
        · exact absurd h2 h1
  · -- level at least 2: the pruning test guarantees every one-element removal
    have hfrne : fr ≠ [] := fun h => by simp [h] at haf
    have hhead : (fr.headD []).length = k := by
      rcases fr with _ | ⟨F0, fr2⟩
      · exact absurd rfl hfrne
      · exact (hg.2 F0 (List.mem_cons_self ..)).2.1
    have hprune : is_prune_candidate fr S = false := by
      unfold candidate_prune at hSpruned
      rw [if_neg (by omega)] at hSpruned
      have := List.mem_filter.1 hSpruned
      simpa using this.2
    have hall := is_prune_candidate_eq_false.1 hprune
    obtain ⟨l1, l2, rfl⟩ := List.append_of_mem he
    have hidx : l1.length < (l1 ++ e :: l2).length := by
      rw [List.length_append, List.length_cons]
      omega
    have hF := hall l1.length hidx
    rw [eraseIdx_append_len] at hF
    refine ⟨l1 ++ l2, hF, ?_⟩
    have he1 : e ∉ l1 := by
      have := List.nodup_append.1 hSnd
      intro hcon
      exact this.2.2 hcon (List.mem_cons_self ..)
    have he2 : e ∉ l2 := by
      have := List.nodup_append.1 hSnd
      exact (List.nodup_cons.1 this.2.1).1
    exact toFinset_append_middle he1 he2

theorem freq_loop_succ (t : List Transaction) (m : ℚ) (fuel : Nat) (fr : List Itemset) :
    freq_loop t m (fuel + 1) fr =
      if fr.isEmpty then []
      else
        fr ++ freq_loop t m fuel
          (candidate_elimination t (candidate_prune fr (candidate_generation fr)) m) := rfl

theorem freq_loop_mem {t : List Transaction} {m : ℚ} {v : List Item} :
    ∀ {fuel : Nat} {k : Nat} {fr : List Itemset}, goodFrontier v k fr → 1 ≤ k →
      ∀ S ∈ freq_loop t m fuel fr, S.Nodup ∧ k ≤ S.length ∧ ∀ x ∈ S, x ∈ v := by
  intro fuel
  induction fuel with
  | zero => intro k fr _ _ S hS; simp [freq_loop] at hS
  | succ fuel ih =>
    intro k fr hg hk S hS
    rw [freq_loop_succ] at hS
    by_cases hfr : fr.isEmpty
    · rw [if_pos hfr] at hS; simp at hS
    · rw [if_neg hfr] at hS
      rcases List.mem_append.1 hS with h | h
      · obtain ⟨h1, h2, h3⟩ := hg.2 S h
        exact ⟨h1, le_of_eq h2.symm, h3⟩
      · obtain ⟨h1, h2, h3⟩ := ih (next_frontier_good hg hk) (by omega) S h
        exact ⟨h1, by omega, h3⟩

theorem freq_loop_mem_frontier_of_length {t : List Transaction} {m : ℚ} {v : List Item}
    {fuel : Nat} {k : Nat} {fr : List Itemset} (hg : goodFrontier v k fr) (hk : 1 ≤ k)
    {S : Itemset} (hS : S ∈ freq_loop t m fuel fr) (hlen : S.length = k) : S ∈ fr := by
  cases fuel with
  | zero => simp [freq_loop] at hS
  | succ fuel =>
    rw [freq_loop_succ] at hS
    by_cases hfr : fr.isEmpty
    · rw [if_pos hfr] at hS; simp at hS
    · rw [if_neg hfr] at hS
      rcases List.mem_append.1 hS with h | h
      · exact h
      · have := (freq_loop_mem (next_frontier_good hg hk) (by omega) S h).2.1
        omega

theorem freq_loop_support {t : List Transaction} {m : ℚ} :
    ∀ {fuel : Nat} {fr : List Itemset}, ∀ S ∈ freq_loop t m fuel fr,
      S ∈ fr ∨ m ≤ get_support_for_candidate t S := by
  intro fuel
  induction fuel with
  | zero => intro fr S hS; simp [freq_loop] at hS
  | succ fuel ih =>
    intro fr S hS
    rw [freq_loop_succ] at hS
    by_cases hfr : fr.isEmpty
    · rw [if_pos hfr] at hS; simp at hS
    · rw [if_neg hfr] at hS
      rcases List.mem_append.1 hS with h | h
      · exact Or.inl h
      · rcases ih S h with h2 | h2
        · exact Or.inr (mem_candidate_elimination.1 h2).2
        · exact Or.inr h2

theorem freq_loop_stable {t : List Transaction} {m : ℚ} {v : List Item} :
    ∀ {fuel : Nat} {k : Nat} {fr : List Itemset}, goodFrontier v k fr → 1 ≤ k →
      v.length + 1 ≤ k + fuel →
      freq_loop t m fuel fr = freq_loop t m (fuel + 1) fr := by
  intro fuel
  induction fuel with
  | zero =>
    intro k fr hg hk hb
    have : fr = [] := frontier_empty_of_big hg (by omega)
    subst this
    simp [freq_loop]
  | succ fuel ih =>
    intro k fr hg hk hb
    rw [freq_loop_succ, freq_loop_succ]
    by_cases hfr : fr.isEmpty
    · rw [if_pos hfr, if_pos hfr]
    · rw [if_neg hfr, if_neg hfr]
      rw [ih (next_frontier_good hg hk) (by omega) (by omega)]

theorem freq_loop_stable_add {t : List Transaction} {m : ℚ} {v : List Item}
    {k : Nat} {fr : List Itemset} (hg : goodFrontier v k fr) (hk : 1 ≤ k)
    {fuel : Nat} (hb : v.length + 1 ≤ k + fuel) (extra : Nat) :
    freq_loop t m (fuel + extra) fr = freq_loop t m fuel fr := by
  induction extra with
  | zero => rfl
  | succ e ih =>
    rw [show fuel + (e + 1) = (fuel + e) + 1 by omega]
    rw [← freq_loop_stable hg hk (by omega), ih]

theorem freq_loop_closure {t : List Transaction} {m : ℚ} {v : List Item} :
    ∀ {fuel : Nat} {k : Nat} {fr : List Itemset}, goodFrontier v k fr → 1 ≤ k →
      ∀ S ∈ freq_loop t m fuel fr, ∀ U : Finset Item, U ⊆ S.toFinset → k ≤ U.card →
        ∃ S2 ∈ freq_loop t m fuel fr, S2.toFinset = U := by
  intro fuel
  induction fuel with
  | zero => intro k fr _ _ S hS; simp [freq_loop] at hS
  | succ fuel ih =>
    intro k fr hg hk S hS U hU hcard
    rw [freq_loop_succ] at hS ⊢
    by_cases hfr : fr.isEmpty
    · rw [if_pos hfr] at hS; simp at hS
    · rw [if_neg hfr] at hS ⊢
      have hnext := next_frontier_good (t := t) (m := m) hg hk
      rcases List.mem_append.1 hS with h | h
      · obtain ⟨hnd, hlen, _⟩ := hg.2 S h
        have hScard : S.toFinset.card = k := by
          rw [List.toFinset_card_of_nodup hnd, hlen]
        have hUS : U = S.toFinset :=
          Finset.eq_of_subset_of_card_le hU (by omega)
        exact ⟨S, List.mem_append_left _ h, hUS.symm⟩
      · rcases Nat.lt_or_ge U.card (k + 1) with hUk | hUk
        · -- the subset has exactly the frontier size: descend one level
          have hUk : U.card = k := by omega
          obtain ⟨hSnd, hSlen, _⟩ := freq_loop_mem hnext (by omega) S h
          have hScard : k + 1 ≤ S.toFinset.card := by
            rw [List.toFinset_card_of_nodup hSnd]
            omega
          have hex : ∃ e ∈ S.toFinset, e ∉ U := by
            by_contra hco
            push_neg at hco
            have hsub : S.toFinset ⊆ U := fun e hee => hco e hee
            have := Finset.card_le_card hsub
            omega
          obtain ⟨e, heS, heU⟩ := hex
          have hU2 : insert e U ⊆ S.toFinset := Finset.insert_subset heS hU
          have hU2card : (insert e U).card = k + 1 := by
            rw [Finset.card_insert_of_not_mem heU, hUk]
          obtain ⟨S1, hS1, hS1U⟩ := ih hnext (by omega) S h (insert e U) hU2 (by omega)
          obtain ⟨hS1nd, _, _⟩ := freq_loop_mem hnext (by omega) S1 hS1
          have hS1len : S1.length = k + 1 := by
            have := List.toFinset_card_of_nodup hS1nd
            rw [hS1U, hU2card] at this
            omega
          have hS1next : S1 ∈ candidate_elimination t
              (candidate_prune fr (candidate_generation fr)) m :=
            freq_loop_mem_frontier_of_length hnext (by omega) hS1 hS1len
          have heS1 : e ∈ S1 := by
            rw [← List.mem_toFinset, hS1U]
            exact Finset.mem_insert_self e U
          obtain ⟨F, hF, hFU⟩ := next_frontier_erase hg hk S1 hS1next e heS1
          refine ⟨F, List.mem_append_left _ hF, ?_⟩
          rw [hFU, hS1U, Finset.erase_insert heU]
        · obtain ⟨S2, hS2, hS2U⟩ := ih hnext (by omega) S h U hU (by omega)
          exact ⟨S2, List.mem_append_right _ hS2, hS2U⟩

theorem gfi_def (t : List Transaction) (m : ℚ) :
    generate_frequent_itemset t m =
      freq_loop t m (vocabBound t) (generate_initial_frequent_items t m) := rfl

theorem item_count_eq_support_count (x : Item) :
    ∀ {t : List Transaction}, (∀ T ∈ t, T.Nodup) →
      item_count t x = support_count t [x] := by
  intro t
  induction t with
  | nil => intro _; rfl
  | cons T rest ih =>
    intro hnd
    have hT : T.Nodup := hnd T (List.mem_cons_self ..)
    have hrest := ih (fun T2 h => hnd T2 (List.mem_cons_of_mem _ h))
    have hstep1 : item_count (T :: rest) x = T.count x + item_count rest x := by
      simp [item_count]
    have hstep2 : support_count (T :: rest) [x] =
        (if is_contains_candidate T [x] = true then 1 else 0) + support_count rest [x] := by
      rw [support_count, List.filter_cons]
      split
      · rw [List.length_cons, support_count]
        omega
      · rw [support_count]
        omega
    rw [hstep1, hstep2, hrest]
    by_cases hx : x ∈ T
    · rw [List.count_eq_one_of_mem hT hx, if_pos (by simp [is_contains_candidate, hx])]
    · rw [List.count_eq_zero_of_not_mem hx,
        if_neg (by simp [is_contains_candidate, hx])]

theorem generate_initial_eq_elimination {t : List Transaction}
    (hnd : ∀ T ∈ t, T.Nodup) (m : ℚ) :
    generate_initial_frequent_items t m =
      candidate_elimination t ((distinct_items t).map (fun x => [x])) m := by
  unfold generate_initial_frequent_items candidate_elimination
  rw [List.filter_map]
  congr 1
  apply List.filter_congr
  intro x hx
  simp only [Function.comp_apply]
  rw [item_count_eq_support_count x hnd]
  rfl

theorem gfi_mem_good {t : List Transaction} {m : ℚ} {S : Itemset}
    (hS : S ∈ generate_frequent_itemset t m) :
    S.Nodup ∧ 1 ≤ S.length ∧ ∀ x ∈ S, x ∈ distinct_items t := by
  rw [gfi_def] at hS
  exact freq_loop_mem (generate_initial_goodFrontier t m) le_rfl S hS

theorem gfi_mem_support {t : List Transaction} {m : ℚ} {S : Itemset}
    (hS : S ∈ generate_frequent_itemset t m) :
    S ∈ generate_initial_frequent_items t m ∨ m ≤ get_support_for_candidate t S := by
  rw [gfi_def] at hS
  exact freq_loop_support S hS

theorem gfi_support_of_two {t : List Transaction} {m : ℚ} {S : Itemset}
    (hS : S ∈ generate_frequent_itemset t m) (h2 : 2 ≤ S.length) :
    m ≤ get_support_for_candidate t S := by
  rcases gfi_mem_support hS with hinit | hsup
  · obtain ⟨x, _, _, rfl⟩ := mem_generate_initial.1 hinit
    simp at h2
  · exact hsup

/-- C10: on transactions that repeat no label, the occurrence tally of
`generate_initial_frequent_items` agrees with the subset-containment
count of `get_support_for_candidate` on the corresponding singleton, and
the initial frequent items are exactly the singletons that
`candidate_elimination` keeps, for every `minsup`. -/
theorem C10_initial_counting_agrees {t : List Transaction}
    (ht : t ≠ []) (hnd : ∀ T ∈ t, T.Nodup) :
    (∀ x : Item, item_count t x = support_count t [x]) ∧
      ∀ m : ℚ, generate_initial_frequent_items t m =
        candidate_elimination t ((distinct_items t).map (fun x => [x])) m :=
  ⟨fun x => item_count_eq_support_count x hnd,
    fun m => generate_initial_eq_elimination hnd m⟩

theorem C10_witness :
    (∀ x : Item, item_count [["a"], ["a", "b"]] x = support_count [["a"], ["a", "b"]] [x]) ∧
      ∀ m : ℚ, generate_initial_frequent_items [["a"], ["a", "b"]] m =
        candidate_elimination [["a"], ["a", "b"]]
          ((distinct_items [["a"], ["a", "b"]]).map (fun x => [x])) m :=
  C10_initial_counting_agrees (by decide) (by decide)

/-- C1 (amended): on a non-empty transactions list in which no
transaction repeats a label and `minsup` in `(0, 1]`, every itemset in
the result of `generate_frequent_itemset` has support at least `minsup`,
and every candidate evaluated by `candidate_elimination` but excluded
has support strictly below `minsup`.  (The no-repeated-label restriction
is forced by `C1_counterexample`.) -/
theorem C1_support_threshold {t : List Transaction} {m : ℚ}
    (ht : t ≠ []) (hnd : ∀ T ∈ t, T.Nodup) (hm0 : 0 < m) (hm1 : m ≤ 1) :
    (∀ S ∈ generate_frequent_itemset t m, m ≤ get_support_for_candidate t S) ∧
      ∀ (cands : List Itemset) (c : Itemset), c ∈ cands →
        c ∉ candidate_elimination t cands m → get_support_for_candidate t c < m := by
  constructor
  · intro S hS
    rcases gfi_mem_support hS with hinit | hsup
    · obtain ⟨x, hx, hle, rfl⟩ := mem_generate_initial.1 hinit
      rw [get_support_for_candidate, ← item_count_eq_support_count x hnd]
      exact hle
    · exact hsup
  · intro cands c hc hnc
    by_contra hge
    push_neg at hge
    exact hnc (mem_candidate_elimination.2 ⟨hc, hge⟩)

theorem C1_witness :
    (∀ S ∈ generate_frequent_itemset [["a"], ["a", "b"]] 1,
        (1 : ℚ) ≤ get_support_for_candidate [["a"], ["a", "b"]] S) ∧
      ∀ (cands : List Itemset) (c : Itemset), c ∈ cands →
        c ∉ candidate_elimination [["a"], ["a", "b"]] cands 1 →
        get_support_for_candidate [["a"], ["a", "b"]] c < 1 :=
  C1_support_threshold (by decide) (by decide) (by norm_num) le_rfl

/-- C1 as stated fails on a transaction that repeats a label: with
transactions `[[a, a], [b]]` and `minsup = 1` the dictionary tally makes
`[a]` frequent although only half of the transactions contain it. -/
theorem C1_counterexample :
    ["a"] ∈ generate_frequent_itemset [["a", "a"], ["b"]] 1 ∧
      get_support_for_candidate [["a", "a"], ["b"]] ["a"] < 1 := by
  exact ⟨by decide, by decide⟩

/-- C2: for non-empty transactions and `minsup` in `(0, 1]`, every
itemset of size at least 2 in the mining result has every non-empty
proper label subset represented in the result. -/
theorem C2_anti_monotone_closure {t : List Transaction} {m : ℚ}
    (ht : t ≠ []) (hm0 : 0 < m) (hm1 : m ≤ 1) :
    ∀ S ∈ generate_frequent_itemset t m, 2 ≤ S.length →
      ∀ U : Finset Item, U.Nonempty → U ⊂ S.toFinset →
        ∃ S2 ∈ generate_frequent_itemset t m, S2.toFinset = U := by
  intro S hS hlen U hUne hUsub
  rw [gfi_def] at hS ⊢
  exact freq_loop_closure (generate_initial_goodFrontier t m) le_rfl S hS U hUsub.subset
    (Finset.card_pos.2 hUne)

theorem C2_witness :
    ∃ S2 ∈ generate_frequent_itemset [["a", "b"], ["a", "b"]] 1,
      S2.toFinset = ({"a"} : Finset Item) := by
  have hS : ["a", "b"] ∈ generate_frequent_itemset [["a", "b"], ["a", "b"]] 1 := by decide
  exact C2_anti_monotone_closure (by decide) (by decide) le_rfl ["a", "b"] hS (by decide)
    {"a"} (by decide) (by decide)

/-- C4: contrary to the claim, neither entry point validates its
thresholds.  With `minsup = 2` (outside `(0, 1]`) the miner silently
returns an empty result, with `minsup = 0` it silently mines, and the
rule generator likewise returns normally for out-of-range thresholds. -/
theorem C4_no_entry_validation :
    generate_frequent_itemset [["a"]] 2 = [] ∧
      generate_frequent_itemset [["a"]] 0 = [["a"]] ∧
      generate_association_rules [["a"]] 2 2 = [] ∧
      generate_association_rules [["a"]] 0 2 = [] := by
  exact ⟨by decide, by decide, by decide, by decide⟩

/-- C5: the empty transactions list yields empty results from both entry
points, without any error (no support division is ever evaluated, since
no candidate is ever formed). -/
theorem C5_empty_transactions {m c : ℚ} (hm0 : 0 < m) (hm1 : m ≤ 1)
    (hc0 : 0 < c) (hc1 : c ≤ 1) :
    generate_frequent_itemset [] m = [] ∧ generate_association_rules [] m c = [] :=
  ⟨rfl, rfl⟩

theorem C5_witness :
    generate_frequent_itemset [] 1 = [] ∧ generate_association_rules [] 1 1 = [] :=
  C5_empty_transactions one_pos le_rfl one_pos le_rfl

/-- C9: for any transactions list and `minsup` in `(0, 1]`, running the
level-wise loop with any fuel beyond `vocabBound` changes nothing: the
loop has already reached its empty-frontier exit, so
`generate_frequent_itemset` terminates, and with it
`generate_association_rules` (whose inner loop is bounded by the itemset
size on entry). -/
theorem C9_termination {t : List Transaction} {m c : ℚ} (hm0 : 0 < m) (hm1 : m ≤ 1)
    (extra : Nat) :
    generate_frequent_itemset_fuel t m (vocabBound t + extra) =
        generate_frequent_itemset t m ∧
      generate_association_rules_fuel t m c (vocabBound t + extra) =
        generate_association_rules t m c := by
  have h1 : generate_frequent_itemset_fuel t m (vocabBound t + extra) =
      generate_frequent_itemset t m := by
    rw [generate_frequent_itemset, generate_frequent_itemset_fuel,
      generate_frequent_itemset_fuel]
    exact freq_loop_stable_add (generate_initial_goodFrontier t m) le_rfl
      (by rw [vocabBound]; omega) extra
  refine ⟨h1, ?_⟩
  rw [generate_association_rules, generate_association_rules_fuel,
    generate_association_rules_fuel, h1, generate_frequent_itemset]

theorem C9_witness :
    generate_frequent_itemset_fuel [["a"], ["b"]] 1 (vocabBound [["a"], ["b"]] + 3) =
        generate_frequent_itemset [["a"], ["b"]] 1 ∧
      generate_association_rules_fuel [["a"], ["b"]] 1 1 (vocabBound [["a"], ["b"]] + 3) =
        generate_association_rules [["a"], ["b"]] 1 1 :=
  C9_termination (by norm_num) le_rfl 3

theorem toFinset_merge_union {p : Itemset} {x y : Item} :
    (p ++ [x, y]).toFinset = (p ++ [x]).toFinset ∪ (p ++ [y]).toFinset := by
  ext z
  simp only [List.toFinset_append, List.toFinset_cons, List.toFinset_nil,
    Finset.mem_union, Finset.mem_insert, Finset.not_mem_empty, or_false]
  tauto

/-- C3 (amended): for a duplicate-free list of duplicate-free
`k`-itemsets, the label sets produced by `candidate_generation` are
exactly the unions of pairs of distinct members that agree on their
first `k - 1` list positions; every such union has size `k + 1`, so the
produced sets form a subset of the pairwise unions of size `k + 1`
claimed by the specification (`C3_counterexample` shows the inclusion
can be strict). -/
theorem C3_candidate_generation_join {l : List Itemset} {k : Nat}
    (hk : 1 ≤ k) (hnd : l.Nodup) (hmem : ∀ a ∈ l, a.Nodup ∧ a.length = k) :
    (∀ s : Finset Item,
        (∃ c ∈ candidate_generation l, c.toFinset = s) ↔
          ∃ a b, a ∈ l ∧ b ∈ l ∧ a ≠ b ∧ a.dropLast = b.dropLast ∧
            s = a.toFinset ∪ b.toFinset) ∧
      ∀ c ∈ candidate_generation l, ∃ a b, a ∈ l ∧ b ∈ l ∧ a ≠ b ∧
        c.toFinset = a.toFinset ∪ b.toFinset ∧ c.toFinset.card = k + 1 := by
  have hgood : goodFrontier l.flatten k l := by
    refine ⟨hnd, fun a ha => ⟨(hmem a ha).1, (hmem a ha).2, fun x hx => ?_⟩⟩
    exact List.mem_flatten.2 ⟨a, ha, hx⟩
  have hfwd : ∀ c ∈ candidate_generation l, ∃ a b, a ∈ l ∧ b ∈ l ∧ a ≠ b ∧
      a.dropLast = b.dropLast ∧ c.toFinset = a.toFinset ∪ b.toFinset ∧
      c.toFinset.card = k + 1 := by
    intro c hc
    have hcgood := (candidate_generation_good hgood hk).2 c hc
    obtain ⟨a, b, hab, hm⟩ := mem_candidate_generation.1 hc
    obtain ⟨haf, hbf⟩ := mem_pairs hab
    have hne : a ≠ b := pairs_ne_of_nodup hnd hab
    have ha0 : a ≠ [] := fun h => by
      have := (hmem a haf).2
      rw [h] at this
      simp at this
      omega
    have hb0 : b ≠ [] := fun h => by
      have := (hmem b hbf).2
      rw [h] at this
      simp at this
      omega
    obtain ⟨p, x, y, hpa, hpb, rfl⟩ :=
      merge_eq_some ha0 hb0 ((hmem a haf).2.trans (hmem b hbf).2.symm) hm
    refine ⟨a, b, haf, hbf, hne, ?_, ?_, ?_⟩
    · rw [hpa, hpb, List.dropLast_concat, List.dropLast_concat]
    · rw [hpa, hpb]
      exact toFinset_merge_union
    · rw [List.toFinset_card_of_nodup hcgood.1, hcgood.2.1]
  refine ⟨fun s => ⟨?_, ?_⟩, fun c hc => ?_⟩
  · rintro ⟨c, hc, rfl⟩
    obtain ⟨a, b, h1, h2, h3, h4, h5, _⟩ := hfwd c hc
    exact ⟨a, b, h1, h2, h3, h4, h5⟩
  · rintro ⟨a, b, haf, hbf, hne, hdrop, rfl⟩
    have ha0 : a ≠ [] := fun h => by
      have := (hmem a haf).2
      rw [h] at this
      simp at this
      omega
    have hb0 : b ≠ [] := fun h => by
      have := (hmem b hbf).2
      rw [h] at this
      simp at this
      omega
    obtain ⟨p, x, hpa⟩ := (a.eq_nil_or_concat').resolve_left ha0
    obtain ⟨q, y, hpb⟩ := (b.eq_nil_or_concat').resolve_left hb0
    have hpq : p = q := by
      have h1 : a.dropLast = p := by rw [hpa, List.dropLast_concat]
      have h2 : b.dropLast = q := by rw [hpb, List.dropLast_concat]
      rw [← h1, ← h2, hdrop]
    subst hpq
    rcases pairs_mem_of_ne hne haf hbf with hpair | hpair
    · refine ⟨p ++ [x, y], mem_candidate_generation.2 ⟨a, b, hpair, ?_⟩, ?_⟩
      · rw [hpa, hpb]
        exact merge_concat
      · rw [hpa, hpb]
        exact toFinset_merge_union
    · refine ⟨p ++ [y, x], mem_candidate_generation.2 ⟨b, a, hpair, ?_⟩, ?_⟩
      · rw [hpa, hpb]
        exact merge_concat
      · rw [hpa, hpb, toFinset_merge_union, Finset.union_comm]
  · obtain ⟨a, b, h1, h2, h3, _, h5, h6⟩ := hfwd c hc
    exact ⟨a, b, h1, h2, h3, h5, h6⟩

theorem C3_amended_witness :
    (∀ s : Finset Item,
        (∃ c ∈ candidate_generation [["a"], ["b"]], c.toFinset = s) ↔
          ∃ a b, a ∈ [["a"], ["b"]] ∧ b ∈ [["a"], ["b"]] ∧ a ≠ b ∧
            a.dropLast = b.dropLast ∧ s = a.toFinset ∪ b.toFinset) ∧
      ∀ c ∈ candidate_generation [["a"], ["b"]], ∃ a b, a ∈ [["a"], ["b"]] ∧
        b ∈ [["a"], ["b"]] ∧ a ≠ b ∧ c.toFinset = a.toFinset ∪ b.toFinset ∧
        c.toFinset.card = 1 + 1 :=
  C3_candidate_generation_join le_rfl (by decide) (by decide)

/-- C3 as stated fails: the two distinct duplicate-free 2-itemsets
`[a, b]` and `[c, a]` have a union of size 3, yet `candidate_generation`
produces nothing for them, because `merge` joins only lists agreeing on
their ordered prefix. -/
theorem C3_counterexample :
    candidate_generation [["a", "b"], ["c", "a"]] = [] ∧
      ["a", "b"] ≠ ["c", "a"] ∧
      (["a", "b"].toFinset ∪ ["c", "a"].toFinset).card = 2 + 1 :=
  ⟨by decide, by decide, by decide⟩

theorem get_support_congr {t : List Transaction} {c1 c2 : Itemset}
    (h : ∀ x, x ∈ c1 ↔ x ∈ c2) :
    get_support_for_candidate t c1 = get_support_for_candidate t c2 :=
  le_antisymm (get_support_mono (fun x hx => (h x).2 hx))
    (get_support_mono (fun x hx => (h x).1 hx))

theorem mem_minus_subset {α : Type} [BEq α] [LawfulBEq α] {l1 l2 : List α} {x : α} :
    x ∈ minus_subset l1 l2 ↔ x ∈ l1 ∧ x ∉ l2 := by
  simp [minus_subset]

theorem rule_prune_snd_mem {t : List Transaction} {I : Itemset} {H : List Itemset}
    {c : ℚ} {r : List String} :
    r ∈ (rule_prune t I H c).2 ↔
      ∃ h ∈ H, rule_keeps t I c h = true ∧ r = minus_subset I h ++ "=>" :: h := by
  simp only [rule_prune, List.mem_map, List.mem_filter]
  constructor
  · rintro ⟨h, ⟨hh, hkeep⟩, rfl⟩
    exact ⟨h, hh, hkeep, rfl⟩
  · rintro ⟨h, hh, hkeep, rfl⟩
    exact ⟨h, ⟨hh, hkeep⟩, rfl⟩

theorem rule_prune_fst_subset {t : List Transaction} {I : Itemset} {H : List Itemset}
    {c : ℚ} {h : Itemset} (hh : h ∈ (rule_prune t I H c).1) : h ∈ H := by
  simp only [rule_prune] at hh
  exact (mem_minus_subset.1 hh).1

theorem candidate_generation_inv {H : List Itemset} {n : Nat} {A : List Item}
    (hn : 1 ≤ n) (hH : ∀ h ∈ H, h.length = n ∧ ∀ x ∈ h, x ∈ A) :
    ∀ h2 ∈ candidate_generation H, h2.length = n + 1 ∧ ∀ x ∈ h2, x ∈ A := by
  intro h2 hh2
  obtain ⟨a, b, hab, hm⟩ := mem_candidate_generation.1 hh2
  obtain ⟨haf, hbf⟩ := mem_pairs hab
  obtain ⟨halen, hav⟩ := hH a haf
  obtain ⟨hblen, hbv⟩ := hH b hbf
  have ha0 : a ≠ [] := fun h => by rw [h] at halen; simp at halen; omega
  have hb0 : b ≠ [] := fun h => by rw [h] at hblen; simp at hblen; omega
  obtain ⟨p, x, y, hpa, hpb, rfl⟩ := merge_eq_some ha0 hb0 (halen.trans hblen.symm) hm
  constructor
  · rw [hpa] at halen
    simp only [List.length_append, List.length_cons, List.length_nil] at halen ⊢
    omega
  · intro e he
    rcases List.mem_append.1 he with h | h
    · exact hav e (hpa ▸ List.mem_append_left _ h)
    · rcases List.mem_cons.1 h with rfl | h3
      · exact hav e (hpa ▸ List.mem_append_right _ (List.mem_singleton_self e))
      · rw [List.mem_singleton] at h3
        subst h3
        exact hbv e (hpb ▸ List.mem_append_right _ (List.mem_singleton_self e))

theorem rule_loop_mem {t : List Transaction} {I : Itemset} {c : ℚ} {A : List Item} :
    ∀ {iters : Nat} {n : Nat} {H : List Itemset}, 1 ≤ n →
      (∀ h ∈ H, h.length = n ∧ ∀ x ∈ h, x ∈ A) →
      ∀ r ∈ rule_loop t I c iters H,
        ∃ h, h ≠ [] ∧ (∀ x ∈ h, x ∈ A) ∧ rule_keeps t I c h = true ∧
          r = minus_subset I h ++ "=>" :: h := by
  intro iters
  induction iters with
  | zero => intro n H _ _ r hr; simp [rule_loop] at hr
  | succ iters ih =>
    intro n H hn hH r hr
    simp only [rule_loop] at hr
    have hgen := candidate_generation_inv hn hH
    rcases List.mem_append.1 hr with h1 | h1
    · obtain ⟨h, hh, hkeep, rfl⟩ := rule_prune_snd_mem.1 h1
      obtain ⟨hlen, hsub⟩ := hgen h hh
      refine ⟨h, ?_, hsub, hkeep, rfl⟩
      intro hcon
      rw [hcon] at hlen
      simp at hlen
    · refine ih (n := n + 1) (by omega) ?_ r h1
      intro h hh
      exact hgen h (rule_prune_fst_subset hh)

theorem rules_for_itemset_mem {t : List Transaction} {c : ℚ} {I : Itemset}
    {r : List String} (hr : r ∈ rules_for_itemset t c I) :
    ∃ h, h ≠ [] ∧ (∀ x ∈ h, x ∈ I) ∧ rule_keeps t I c h = true ∧
      r = minus_subset I h ++ "=>" :: h := by
  unfold rules_for_itemset at hr
  split at hr
  · have hH1 : ∀ h ∈ I.map (fun x => [x]), h.length = 1 ∧ ∀ x ∈ h, x ∈ I := by
      intro h hh
      obtain ⟨x, hx, rfl⟩ := List.mem_map.1 hh
      refine ⟨rfl, fun e he => ?_⟩
      rw [List.mem_singleton] at he
      exact he ▸ hx
    rcases List.mem_append.1 hr with h1 | h1
    · obtain ⟨h, hh, hkeep, rfl⟩ := rule_prune_snd_mem.1 h1
      obtain ⟨x, hx, rfl⟩ := List.mem_map.1 hh
      refine ⟨[x], by simp, ?_, hkeep, rfl⟩
      intro e he
      rw [List.mem_singleton] at he
      exact he ▸ hx
    · refine rule_loop_mem (n := 1) le_rfl ?_ r h1
      intro h hh
      exact hH1 h (rule_prune_fst_subset hh)
  · simp at hr

theorem rules_for_itemset_length {t : List Transaction} {c : ℚ} {I : Itemset}
    {r : List String} (hr : r ∈ rules_for_itemset t c I) : 2 ≤ I.length := by
  unfold rules_for_itemset at hr
  split at hr
  · assumption
  · simp at hr

theorem mem_foldr_rules {t : List Transaction} {c : ℚ} :
    ∀ {L : List Itemset} {r : List String},
      r ∈ L.foldr (fun I acc => rules_for_itemset t c I ++ acc) [] ↔
        ∃ I ∈ L, r ∈ rules_for_itemset t c I := by
  intro L
  induction L with
  | nil => intro r; simp
  | cons I L ih =>
    intro r
    simp only [List.foldr_cons, List.mem_append, ih, List.mem_cons]
    constructor
    · rintro (h | ⟨I2, hI2, h⟩)
      · exact ⟨I, Or.inl rfl, h⟩
      · exact ⟨I2, Or.inr hI2, h⟩
    · rintro ⟨I2, rfl | hI2, h⟩
      · exact Or.inl h
      · exact Or.inr ⟨I2, hI2, h⟩

theorem mem_generate_association_rules {t : List Transaction} {m c : ℚ}
    {r : List String} (hr : r ∈ generate_association_rules t m c) :
    ∃ I ∈ generate_frequent_itemset t m, r ∈ rules_for_itemset t c I := by
  rw [generate_association_rules, generate_association_rules_fuel] at hr
  exact mem_foldr_rules.1 hr

/-- C6: every rule emitted by `generate_association_rules` decomposes as
antecedent, separator and consequent, where the antecedent is the
frequent itemset minus the consequent, the two parts are disjoint label
sets whose union is the label set of a frequent itemset of the mining
result, and the confidence ratio meets `minconf`. -/
theorem C6_rule_validity {t : List Transaction} {m c : ℚ}
    (ht : t ≠ []) (hm0 : 0 < m) (hm1 : m ≤ 1) (hc0 : 0 < c) (hc1 : c ≤ 1) :
    ∀ r ∈ generate_association_rules t m c,
      ∃ x h I, r = x ++ "=>" :: h ∧ x = minus_subset I h ∧
        I ∈ generate_frequent_itemset t m ∧
        x.toFinset ∩ h.toFinset = ∅ ∧
        x.toFinset ∪ h.toFinset = I.toFinset ∧
        c ≤ get_support_for_candidate t (x ++ h) / get_support_for_candidate t x := by
  intro r hr
  obtain ⟨I, hI, hr2⟩ := mem_generate_association_rules hr
  obtain ⟨h, hne, hsub, hkeep, rfl⟩ := rules_for_itemset_mem hr2
  refine ⟨minus_subset I h, h, I, rfl, rfl, hI, ?_, ?_, ?_⟩
  · apply Finset.eq_empty_iff_forall_not_mem.2
    intro z hz
    rw [Finset.mem_inter, List.mem_toFinset, List.mem_toFinset] at hz
    exact (mem_minus_subset.1 hz.1).2 hz.2
  · ext z
    rw [Finset.mem_union, List.mem_toFinset, List.mem_toFinset, List.mem_toFinset,
      mem_minus_subset]
    constructor
    · rintro (⟨h1, _⟩ | h1)
      · exact h1
      · exact hsub z h1
    · intro h1
      by_cases h2 : z ∈ h
      · exact Or.inr h2
      · exact Or.inl ⟨h1, h2⟩
  · have h3 := of_decide_eq_true hkeep
    rw [calculate_conf] at h3
    exact h3

theorem rule_keeps_t2_a :
    rule_keeps [["a", "b"], ["a", "b"]] ["a", "b"] 1 ["a"] = true := by
  rw [rule_keeps, calculate_conf,
    show minus_subset ["a", "b"] ["a"] = ["b"] from by decide,
    show get_support_for_candidate [["a", "b"], ["a", "b"]] (["b"] ++ ["a"]) =
      Rat.divInt 2 2 from by decide,
    show get_support_for_candidate [["a", "b"], ["a", "b"]] ["b"] =
      Rat.divInt 2 2 from by decide]
  norm_num [Rat.divInt_eq_div]

theorem rule_keeps_t2_b :
    rule_keeps [["a", "b"], ["a", "b"]] ["a", "b"] 1 ["b"] = true := by
  rw [rule_keeps, calculate_conf,
    show minus_subset ["a", "b"] ["b"] = ["a"] from by decide,
    show get_support_for_candidate [["a", "b"], ["a", "b"]] (["a"] ++ ["b"]) =
      Rat.divInt 2 2 from by decide,
    show get_support_for_candidate [["a", "b"], ["a", "b"]] ["a"] =
      Rat.divInt 2 2 from by decide]
  norm_num [Rat.divInt_eq_div]

theorem rules_for_itemset_t2 :
    rules_for_itemset [["a", "b"], ["a", "b"]] 1 ["a", "b"] =
      [["b", "=>", "a"], ["a", "=>", "b"]] := by
  simp only [rules_for_itemset]
  rw [if_pos (by decide : 2 ≤ (["a", "b"] : Itemset).length),
    show (["a", "b"] : Itemset).map (fun x => [x]) = [["a"], ["b"]] from rfl,
    show (["a", "b"] : Itemset).length - 2 = 0 from rfl]
  simp only [rule_loop, List.append_nil]
  simp only [rule_prune, List.filter_cons, List.filter_nil, rule_keeps_t2_a, rule_keeps_t2_b]
  decide

theorem gar_t2 :
    generate_association_rules [["a", "b"], ["a", "b"]] 1 1 =
      [["b", "=>", "a"], ["a", "=>", "b"]] := by
  rw [generate_association_rules, generate_association_rules_fuel,
    show generate_frequent_itemset_fuel [["a", "b"], ["a", "b"]] 1
        (vocabBound [["a", "b"], ["a", "b"]]) = [["a"], ["b"], ["a", "b"]] from by decide]
  simp only [List.foldr_cons, List.foldr_nil]
  rw [show rules_for_itemset [["a", "b"], ["a", "b"]] 1 ["a"] = [] from by
      simp [rules_for_itemset],
    show rules_for_itemset [["a", "b"], ["a", "b"]] 1 ["b"] = [] from by
      simp [rules_for_itemset],
    rules_for_itemset_t2]
  rfl

theorem C6_witness :
    ∃ x h I, (["b", "=>", "a"] : List String) = x ++ "=>" :: h ∧ x = minus_subset I h ∧
      I ∈ generate_frequent_itemset [["a", "b"], ["a", "b"]] 1 ∧
      x.toFinset ∩ h.toFinset = ∅ ∧
      x.toFinset ∪ h.toFinset = I.toFinset ∧
      (1 : ℚ) ≤ get_support_for_candidate [["a", "b"], ["a", "b"]] (x ++ h) /
        get_support_for_candidate [["a", "b"], ["a", "b"]] x := by
  have hr : (["b", "=>", "a"] : List String) ∈
      generate_association_rules [["a", "b"], ["a", "b"]] 1 1 := by
    rw [gar_t2]
    exact List.mem_cons_self ..
  exact C6_rule_validity (by decide) (by decide) le_rfl (by decide) le_rfl
    ["b", "=>", "a"] hr

/-- C7: inside rule generation for a fixed frequent itemset, once a
1-item consequent fails the confidence test, no rule produced by the
later iterations has a consequent containing that item, hence none has a
consequent that is a superset of the pruned one. -/
theorem C7_pruned_consequent_never_extended {t : List Transaction} {m c : ℚ}
    (ht : t ≠ []) (hm0 : 0 < m) (hm1 : m ≤ 1) (hc0 : 0 < c) (hc1 : c ≤ 1) :
    ∀ I ∈ generate_frequent_itemset t m, 2 ≤ I.length →
      ∀ e ∈ I, rule_keeps t I c [e] = false →
        ∀ r ∈ rule_loop t I c (I.length - 2)
            (rule_prune t I (I.map (fun x => [x])) c).1,
          ∃ x h, r = x ++ "=>" :: h ∧ x = minus_subset I h ∧ h ≠ [] ∧ e ∉ h := by
  intro I hI h2 e he hfail r hr
  have hInd : I.Nodup := (gfi_mem_good hI).1
  have hstart : ∀ h ∈ (rule_prune t I (I.map (fun x => [x])) c).1,
      h.length = 1 ∧ ∀ x ∈ h, x ∈ I.erase e := by
    intro h hh
    simp only [rule_prune] at hh
    obtain ⟨hh1, hh2⟩ := mem_minus_subset.1 hh
    obtain ⟨x, hx, rfl⟩ := List.mem_map.1 hh1
    have hxe : x ≠ e := by
      rintro rfl
      apply hh2
      rw [List.mem_filter]
      refine ⟨hh1, ?_⟩
      simp [hfail]
    refine ⟨rfl, fun z hz => ?_⟩
    rw [List.mem_singleton] at hz
    subst hz
    exact (List.Nodup.mem_erase_iff hInd).2 ⟨hxe, hx⟩
  obtain ⟨h, hne, hsub, hkeep, rfl⟩ := rule_loop_mem le_rfl hstart r hr
  refine ⟨minus_subset I h, h, rfl, rfl, hne, fun hcon => ?_⟩
  exact ((List.Nodup.mem_erase_iff hInd).1 (hsub e hcon)).1 rfl

theorem rule_keeps_t4_a :
    rule_keeps [["a", "b", "c"], ["a", "b", "c"], ["a", "b"]] ["a", "b", "c"] 1 ["a"] =
      true := by
  rw [rule_keeps, calculate_conf,
    show minus_subset ["a", "b", "c"] ["a"] = ["b", "c"] from by decide,
    show get_support_for_candidate [["a", "b", "c"], ["a", "b", "c"], ["a", "b"]]
      (["b", "c"] ++ ["a"]) = Rat.divInt 2 3 from by decide,
    show get_support_for_candidate [["a", "b", "c"], ["a", "b", "c"], ["a", "b"]]
      ["b", "c"] = Rat.divInt 2 3 from by decide]
  norm_num [Rat.divInt_eq_div]

theorem rule_keeps_t4_b :
    rule_keeps [["a", "b", "c"], ["a", "b", "c"], ["a", "b"]] ["a", "b", "c"] 1 ["b"] =
      true := by
  rw [rule_keeps, calculate_conf,
    show minus_subset ["a", "b", "c"] ["b"] = ["a", "c"] from by decide,
    show get_support_for_candidate [["a", "b", "c"], ["a", "b", "c"], ["a", "b"]]
      (["a", "c"] ++ ["b"]) = Rat.divInt 2 3 from by decide,
    show get_support_for_candidate [["a", "b", "c"], ["a", "b", "c"], ["a", "b"]]
      ["a", "c"] = Rat.divInt 2 3 from by decide]
  norm_num [Rat.divInt_eq_div]

theorem rule_keeps_t4_c :
    rule_keeps [["a", "b", "c"], ["a", "b", "c"], ["a", "b"]] ["a", "b", "c"] 1 ["c"] =
      false := by
  rw [rule_keeps, calculate_conf,
    show minus_subset ["a", "b", "c"] ["c"] = ["a", "b"] from by decide,
    show get_support_for_candidate [["a", "b", "c"], ["a", "b", "c"], ["a", "b"]]
      (["a", "b"] ++ ["c"]) = Rat.divInt 2 3 from by decide,
    show get_support_for_candidate [["a", "b", "c"], ["a", "b", "c"], ["a", "b"]]
      ["a", "b"] = Rat.divInt 3 3 from by decide]
  norm_num [Rat.divInt_eq_div]

theorem rule_keeps_t4_ab :
    rule_keeps [["a", "b", "c"], ["a", "b", "c"], ["a", "b"]] ["a", "b", "c"] 1
      ["a", "b"] = true := by
  rw [rule_keeps, calculate_conf,
    show minus_subset ["a", "b", "c"] ["a", "b"] = ["c"] from by decide,
    show get_support_for_candidate [["a", "b", "c"], ["a", "b", "c"], ["a", "b"]]
      (["c"] ++ ["a", "b"]) = Rat.divInt 2 3 from by decide,
    show get_support_for_candidate [["a", "b", "c"], ["a", "b", "c"], ["a", "b"]]
      ["c"] = Rat.divInt 2 3 from by decide]
  norm_num [Rat.divInt_eq_div]

theorem rule_prune_t4_fst :
    (rule_prune [["a", "b", "c"], ["a", "b", "c"], ["a", "b"]] ["a", "b", "c"]
      [["a"], ["b"], ["c"]] 1).1 = [["a"], ["b"]] := by
  simp only [rule_prune, List.filter_cons, List.filter_nil, rule_keeps_t4_a,
    rule_keeps_t4_b, rule_keeps_t4_c]
  decide

theorem rule_loop_t4 :
    rule_loop [["a", "b", "c"], ["a", "b", "c"], ["a", "b"]] ["a", "b", "c"] 1 1
      [["a"], ["b"]] = [["c", "=>", "a", "b"]] := by
  simp only [rule_loop,
    show candidate_generation [["a"], ["b"]] = [["a", "b"]] from by decide]
  simp only [rule_prune, List.filter_cons, List.filter_nil, rule_keeps_t4_ab]
  decide

theorem C7_witness :
    ∃ x h, (["c", "=>", "a", "b"] : List String) = x ++ "=>" :: h ∧
      x = minus_subset ["a", "b", "c"] h ∧ h ≠ [] ∧ "c" ∉ h := by
  have hIm : ["a", "b", "c"] ∈ generate_frequent_itemset
      [["a", "b", "c"], ["a", "b", "c"], ["a", "b"]] (Rat.divInt 2 3) := by decide
  have hmem : (["c", "=>", "a", "b"] : List String) ∈
      rule_loop [["a", "b", "c"], ["a", "b", "c"], ["a", "b"]] ["a", "b", "c"] 1
        ((["a", "b", "c"] : Itemset).length - 2)
        (rule_prune [["a", "b", "c"], ["a", "b", "c"], ["a", "b"]] ["a", "b", "c"]
          ((["a", "b", "c"] : Itemset).map (fun x => [x])) 1).1 := by
    rw [show ((["a", "b", "c"] : Itemset).map (fun x => [x])) = [["a"], ["b"], ["c"]]
        from rfl,
      rule_prune_t4_fst,
      show (["a", "b", "c"] : Itemset).length - 2 = 1 from rfl,
      rule_loop_t4]
    exact List.mem_singleton_self _
  exact C7_pruned_consequent_never_extended (by decide) (by decide) (by decide)
    (by decide) le_rfl ["a", "b", "c"] hIm (by decide) "c" (by decide)
    rule_keeps_t4_c ["c", "=>", "a", "b"] hmem

/-- C8: during rule generation every antecedent passed to
`calculate_conf` is `minus_subset I h` for a frequent itemset `I` of
size at least 2, and every such list has strictly positive support, so
the division in `calculate_conf` never divides by zero. -/
theorem C8_positive_antecedent_support {t : List Transaction} {m c : ℚ}
    (ht : t ≠ []) (hm0 : 0 < m) (hm1 : m ≤ 1) (hc0 : 0 < c) (hc1 : c ≤ 1) :
    ∀ I ∈ generate_frequent_itemset t m, 2 ≤ I.length →
      ∀ h : Itemset, 0 < get_support_for_candidate t (minus_subset I h) := by
  intro I hI h2 h
  have hsupI : m ≤ get_support_for_candidate t I := gfi_support_of_two hI h2
  have hcount : 0 < support_count t I := support_count_pos_of_le hm0 hsupI
  have hmono : support_count t I ≤ support_count t (minus_subset I h) :=
    support_count_mono (fun x hx => (mem_minus_subset.1 hx).1)
  exact get_support_pos ht (by omega)

theorem C8_witness :
    0 < get_support_for_candidate [["a", "b"], ["a", "b"]] (minus_subset ["a", "b"] ["a"]) := by
  have hm0 : (0 : ℚ) < 1 := by decide
  have hIm : ["a", "b"] ∈ generate_frequent_itemset [["a", "b"], ["a", "b"]] 1 := by decide
  exact C8_positive_antecedent_support (by decide) hm0 le_rfl hm0 le_rfl ["a", "b"] hIm
    (by decide) ["a"]

example : merge ["a"] ["b"] = some ["a", "b"] := by decide

example : merge ["a", "b"] ["a", "c"] = some ["a", "b", "c"] := by decide

example : merge ["a", "b"] ["c", "a"] = none := by decide

example : generate_frequent_itemset [["a", "b"], ["a", "b"]] 1 = [["a"], ["b"], ["a", "b"]] := by
  decide

example :
    generate_frequent_itemset [["a", "a"], ["b"]] 1 = [["a"]] := by decide

example : generate_frequent_itemset [["a"]] 2 = [] := by decide

example : generate_association_rules [["a"]] 2 1 = [] := by decide
